import Mathlib

/-!
Verification development for the gflux reactive component engine
(`src/lib.rs`).  The component table, dirty-set bookkeeping, the
`exec_rebuilds` flush algorithm, and the `with_model` /
`with_model_mut` state accessors are shallowly embedded below; user
`rebuild` hooks are modelled as an explicit table-effect parameter,
and the `RefCell` borrow discipline of the global state is modelled
by an explicit borrow flag.
-/

/-- Component identifiers (`type ComponentId = u64`; ids stay small
enough in the model that natural numbers embed them faithfully). -/
abbrev ComponentId := Nat

/-- A registry entry: the weak reference to a `ComponentBase`.
`live` records whether the weak reference still upgrades, and
`parentId` is the `parent_id` stored in the component's ctx. -/
structure Entry where
  live : Bool
  parentId : Option ComponentId
deriving DecidableEq, Repr

/-- Lookup in the registry map (`HashMap::get`), modelled on an
association list. -/
def lookupEntry : List (ComponentId × Entry) → ComponentId → Option Entry
  | [], _ => none
  | p :: rest, cid => if p.1 = cid then some p.2 else lookupEntry rest cid

/-- The `ComponentTable` struct: id counter, registry map, dirty set. -/
structure ComponentTable where
  next_id : ComponentId
  map : List (ComponentId × Entry)
  dirty : Finset ComponentId
deriving DecidableEq

namespace ComponentTable

/-- `ComponentTable::new`. -/
def new : ComponentTable := ⟨1, [], ∅⟩

/-- `ComponentTable::reserve_id`: returns the fresh id and bumps the
counter. -/
def reserve_id (t : ComponentTable) : ComponentId × ComponentTable :=
  (t.next_id, { t with next_id := t.next_id + 1 })

/-- `ComponentTable::insert`: records (overwriting) the weak reference
for an id. -/
def insert (t : ComponentTable) (cid : ComponentId) (e : Entry) : ComponentTable :=
  { t with map := (cid, e) :: t.map.filter (fun p => p.1 ≠ cid) }

/-- `ComponentTable::is_clean`: true iff the dirty set is empty. -/
def is_clean (t : ComponentTable) : Bool := t.dirty = ∅

/-- `ComponentTable::mark_dirty`: `self.dirty.insert(cid)` on a
`HashSet`. -/
def mark_dirty (t : ComponentTable) (cid : ComponentId) : ComponentTable :=
  { t with dirty := Insert.insert cid t.dirty }

/-- `ComponentTable::destroy`: removes the id from the registry map
and from the dirty set.  This is what `impl Drop for ComponentBase`
runs when the last `ComponentHandle` is dropped. -/
def destroy (t : ComponentTable) (cid : ComponentId) : ComponentTable :=
  { t with map := t.map.filter (fun p => p.1 ≠ cid), dirty := t.dirty.erase cid }

end ComponentTable

/-- The climb step of `exec_rebuilds`:
`map.get(cid).and_then(|c| c.upgrade()).and_then(|c| c.borrow().parent_id())`. -/
def parentOf (t : ComponentTable) (cid : ComponentId) : Option ComponentId :=
  match lookupEntry t.map cid with
  | some e => if e.live then e.parentId else none
  | none => none

/-- Whether the rebuild loop's lookup-and-upgrade succeeds for an id. -/
def liveInMap (m : List (ComponentId × Entry)) (cid : ComponentId) : Bool :=
  match lookupEntry m cid with
  | some e => e.live
  | none => false

/-- One iteration of parent collection in `exec_rebuilds`: the set of
parent ids of every id in `s`. -/
def parentsOf (t : ComponentTable) (s : Finset ComponentId) : Finset ComponentId :=
  s.biUnion (fun cid => (parentOf t cid).toFinset)

/-- The `while !new_dirty.is_empty()` loop of `exec_rebuilds`,
accumulating `all_dirty`.  The registry is not modified during the
climb, so the table is a fixed parameter.  The loop terminates for
every table produced by the engine because a parent's id is smaller
than its child's; the fuel argument makes the recursion structural,
and `next_id` fuel is proved sufficient for well-formed tables. -/
def climbLoop (t : ComponentTable) :
    Nat → Finset ComponentId → Finset ComponentId → Finset ComponentId
  | 0, allD, _ => allD
  | fuel + 1, allD, newD =>
    if newD = ∅ then allD else climbLoop t fuel (allD ∪ newD) (parentsOf t newD)

/-- The ancestor-closed dirty set `all_dirty` computed by
`exec_rebuilds` before any rebuild runs. -/
def allDirtyOf (t : ComponentTable) : Finset ComponentId :=
  climbLoop t t.next_id ∅ t.dirty

/-- The rebuild loop of `exec_rebuilds` over the ascending-id list of
`all_dirty`: each id is looked up and its weak reference upgraded; if
live, `rebuild` runs.  A user `rebuild` hook's effect on the table
(marking dirty via `with_model_mut`, creating or destroying
components) is the parameter `eff`.  Returns the final table and the
trace of ids on which `rebuild` was invoked, in invocation order. -/
def execPass (eff : ComponentId → ComponentTable → ComponentTable) :
    List ComponentId → ComponentTable → ComponentTable × List ComponentId
  | [], t => (t, [])
  | cid :: rest, t =>
    if liveInMap t.map cid then
      ((execPass eff rest (eff cid t)).1, cid :: (execPass eff rest (eff cid t)).2)
    else execPass eff rest t

/-- `ComponentTree::exec_rebuilds`: collect the ancestor-closed dirty
set from the current dirty set, rebuild each live member in ascending
id order (`BTreeSet` iteration), then clear the dirty set entirely. -/
def exec_rebuilds (eff : ComponentId → ComponentTable → ComponentTable)
    (t : ComponentTable) : ComponentTable × List ComponentId :=
  let res := execPass eff ((allDirtyOf t).sort (· ≤ ·)) t
  ({ res.1 with dirty := ∅ }, res.2)

/-- Rebuild hooks that at most mark components dirty (the
`with_model_mut` path): they never touch the registry map. -/
def DirtyOnly (eff : ComponentId → ComponentTable → ComponentTable) : Prop :=
  ∀ cid s, (eff cid s).map = s.map

/-- The table-level effect of `ComponentCtx::create_child`: reserve
the next id and register a live entry whose `parent_id` is this
component's id.  (The child's own `build`/`rebuild` hooks run between
the reservation and the registration in the source; their table
effects are themselves applications of these same operations.) -/
def create_child (t : ComponentTable) (parent : ComponentId) :
    ComponentId × ComponentTable :=
  let r := t.reserve_id
  (r.1, r.2.insert r.1 ⟨true, some parent⟩)

/-- Per-entry well-formedness bit: a recorded parent id is smaller
than the child's id. -/
def parentOkB (p : ComponentId × Entry) : Bool :=
  p.2.parentId.all (fun q => decide (q < p.1))

/-- Well-formed tables: every registered id is below `next_id`, every
recorded parent id is below its child's id, and every dirty id is
below `next_id`.  Every table reachable through the engine's
operations satisfies this. -/
def WF (t : ComponentTable) : Prop :=
  (∀ p ∈ t.map, p.1 < t.next_id ∧ parentOkB p = true) ∧
  (∀ c ∈ t.dirty, c < t.next_id)

instance (t : ComponentTable) : Decidable (WF t) :=
  decidable_of_iff ((∀ p ∈ t.map, p.1 < t.next_id ∧ parentOkB p = true) ∧
    (∀ c ∈ t.dirty, c < t.next_id)) Iff.rfl

/-- Membership in the ancestor closure of the dirty set: what
`exec_rebuilds` puts into `all_dirty`. -/
inductive InClosure (t : ComponentTable) : ComponentId → Prop where
  | base {c} : c ∈ t.dirty → InClosure t c
  | parent {c p} : InClosure t c → parentOf t c = some p → InClosure t p

/-- `ReachesUp t c a`: a is reached from c by climbing zero or more
parent links through live registry entries (a is c itself or an
ancestor of c discoverable by the dirty climb). -/
inductive ReachesUp (t : ComponentTable) : ComponentId → ComponentId → Prop where
  | refl (c) : ReachesUp t c c
  | step {c p q} : parentOf t c = some p → ReachesUp t p q → ReachesUp t c q

/-- The chain of ancestors of `c` (including `c`) followed by
iterating `parentOf`, cut off at `fuel` steps; used to decide
`ReachesUp` on concrete tables. -/
def ancestorChain (t : ComponentTable) : Nat → ComponentId → List ComponentId
  | 0, c => [c]
  | fuel + 1, c =>
    c :: (match parentOf t c with
          | some p => ancestorChain t fuel p
          | none => [])

/-- The borrow state of the `RefCell` that wraps the global model:
`unused` when no access is outstanding, `reading n` during `n` shared
borrows, `writing` while a `RefMut` guard from `borrow_mut` is live. -/
inductive BorrowFlag where
  | unused
  | reading (n : Nat)
  | writing
deriving DecidableEq, Repr

/-- The failure a `RefCell` reports (by panicking) when `borrow_mut`
is called while another borrow is outstanding. -/
inductive AccessPanic where
  | alreadyBorrowed
deriving DecidableEq, Repr

/-- `RefCell::borrow_mut`: succeeds only from the `unused` state. -/
def tryBorrowMut : BorrowFlag → Option BorrowFlag
  | .unused => some .writing
  | _ => none

/-- A lens from the global model to a component's local slice,
`Fn(&mut G) -> &mut A` in the source, embedded as a getter/setter
pair (the source requires lenses to be pure projections). -/
structure Lens (G A : Type) where
  get : G → A
  set : G → A → G

/-- The identity lens (a root component viewing the whole model). -/
def Lens.idLens {G : Type} : Lens G G := ⟨fun g => g, fun _ a => a⟩

/-- The state shared by a `ComponentTree` and every `ComponentCtx`
clone: the global model (with its borrow flag), the component table,
and the registered change listeners.  Listeners are opaque
zero-argument closures; they are represented by their registration
index, so the listener list is `0, 1, ..., numCbs - 1` in
registration order. -/
structure EngineState (G : Type) where
  global : G
  globalBorrow : BorrowFlag
  table : ComponentTable
  numCbs : Nat
deriving DecidableEq

/-- `ComponentCtx::with_model`: `borrow_mut` the global model (a
panic, modelled as an error, if any access is outstanding), apply the
lens, run the read-only closure, return its result.  Nothing else is
touched: no dirty mark, no listener invocation, and the state is
returned unchanged. -/
def with_model {G A R : Type} (lens : Lens G A) (f : A → R) (s : EngineState G) :
    Except AccessPanic (EngineState G × R) :=
  match tryBorrowMut s.globalBorrow with
  | none => .error .alreadyBorrowed
  | some _ => .ok (s, f (lens.get s.global))

/-- `ComponentCtx::with_model_mut` for the component with id `cid`:
read `is_clean`, mark `cid` dirty, `borrow_mut` the global model
(panic if an access is outstanding), run the mutating closure through
the lens, then — still before the `RefMut` guard is dropped — invoke
every change listener in registration order when the table was clean
at entry.  Returns the closure's result and the list of listener
invocations. -/
def with_model_mut {G A R : Type} (cid : ComponentId) (lens : Lens G A)
    (f : A → A × R) (s : EngineState G) :
    Except AccessPanic (EngineState G × R × List Nat) :=
  match tryBorrowMut s.globalBorrow with
  | none => .error .alreadyBorrowed
  | some _ =>
    .ok ({ s with global := lens.set s.global (f (lens.get s.global)).1,
                  table := s.table.mark_dirty cid },
         (f (lens.get s.global)).2,
         if s.table.is_clean then List.range s.numCbs else [])

/-- Projection of the listener invocations out of a `with_model_mut`
outcome (a panic invokes none). -/
def firedOf {G R : Type} : Except AccessPanic (EngineState G × R × List Nat) → List Nat
  | .ok x => x.2.2
  | .error _ => []

/-- The sequence of primitive steps one `with_model_mut` call performs
on the global state, in program order: acquire the exclusive borrow,
run the closure, invoke the listeners (only on a clean→dirty edge),
and only then — at scope end — release the borrow. -/
inductive MEvent where
  | borrowGlobal
  | runClosure
  | invoke (i : Nat)
  | releaseGlobal
deriving DecidableEq, Repr

/-- Event trace of `with_model_mut` with `numCbs` registered listeners
when the dirty set was (`wasClean`) empty at entry, taken directly
from the statement order of the source: the `RefMut` guard obtained
at the top of the function body is dropped at the end of the body,
after the listener loop. -/
def with_model_mut_events (numCbs : Nat) (wasClean : Bool) : List MEvent :=
  [MEvent.borrowGlobal, MEvent.runClosure]
    ++ (if wasClean then (List.range numCbs).map MEvent.invoke else [])
    ++ [MEvent.releaseGlobal]

/-- Event trace of `with_model`: no listener is ever invoked. -/
def with_model_events : List MEvent :=
  [MEvent.borrowGlobal, MEvent.runClosure, MEvent.releaseGlobal]

/-- A sequence of `with_model_mut` calls (component id and mutation)
run between two flushes, collecting every listener invocation in
order.  Components mutate their own slice; for the bookkeeping
claims the slice is taken to be the whole model via the identity
lens. -/
def runMuts {G : Type} : List (ComponentId × (G → G)) → EngineState G → EngineState G × List Nat
  | [], s => (s, [])
  | m :: rest, s =>
    match with_model_mut m.1 Lens.idLens (fun g => (m.2 g, ())) s with
    | .ok x => ((runMuts rest x.1).1, x.2.2 ++ (runMuts rest x.1).2)
    | .error _ => (s, [])

/-! Concrete instances used by counterexamples and witnesses. -/

/-- Rebuild hooks with no table effect. -/
def effNone : ComponentId → ComponentTable → ComponentTable := fun _ s => s

/-- The registry of the scenario tree of the spec: root R (id 1) owns
list L (id 2) which owns tasks T1..T5 (ids 3..7); all live. -/
def mapRLT : List (ComponentId × Entry) :=
  [(1, ⟨true, none⟩), (2, ⟨true, some 1⟩), (3, ⟨true, some 2⟩), (4, ⟨true, some 2⟩),
   (5, ⟨true, some 2⟩), (6, ⟨true, some 2⟩), (7, ⟨true, some 2⟩)]

/-- The scenario tree with a clean dirty set. -/
def tRLT : ComponentTable := ⟨8, mapRLT, ∅⟩

/-- The scenario tree after T3 (id 5) was marked dirty. -/
def tRLTdirty : ComponentTable := ⟨8, mapRLT, {5}⟩

/-- Engine state for the scenario: clean table, no outstanding
borrow, one registered change listener. -/
def sRLT : EngineState Unit :=
  { global := (), globalBorrow := .unused, table := tRLT, numCbs := 1 }

/-- The rebuild trace of the scenario: mark T3 (id 5) dirty through
`with_model_mut`, then flush with effect-free rebuild hooks. -/
def traceRLT : List ComponentId :=
  match with_model_mut 5 Lens.idLens (fun g => (g, ())) sRLT with
  | .ok x => (exec_rebuilds effNone x.1.table).2
  | .error _ => []

/-- A two-component table (root 1, child 2) with the root dirty, used
to exhibit what happens to marks created during a flush. -/
def tTwo : ComponentTable := ⟨3, [(1, ⟨true, none⟩), (2, ⟨true, some 1⟩)], {1}⟩

/-- A rebuild effect in which the rebuild of component 1 calls
`with_model_mut` on component 2, marking it dirty mid-flush. -/
def effMark2 : ComponentId → ComponentTable → ComponentTable :=
  fun cid s => if cid = 1 then s.mark_dirty 2 else s

/-- An engine state whose global model is currently exclusively
borrowed: the situation inside the closure of an active `with_model`
or `with_model_mut`. -/
def sBusy : EngineState Nat :=
  { global := 0, globalBorrow := .writing, table := ComponentTable.new, numCbs := 0 }

/-- A fresh engine state with two registered change listeners. -/
def sTwoCbs : EngineState Nat :=
  { global := 0, globalBorrow := .unused, table := ComponentTable.new, numCbs := 2 }

/-- A fresh engine state used to exercise `with_model`. -/
def sFree : EngineState Nat :=
  { global := 7, globalBorrow := .unused, table := ComponentTable.new, numCbs := 1 }

/-! Basic lemmas about the registry map. -/

theorem lookupEntry_mem {m : List (ComponentId × Entry)} {cid : ComponentId} {e : Entry}
    (h : lookupEntry m cid = some e) : (cid, e) ∈ m := by
  induction m with
  | nil => simp [lookupEntry] at h
  | cons p rest ih =>
    rw [lookupEntry] at h
    by_cases hp : p.1 = cid
    · rw [if_pos hp] at h
      have h2 : p.2 = e := Option.some.inj h
      have hpe : p = (cid, e) := by
        cases p
        simp_all
      rw [← hpe]
      exact List.mem_cons_self p rest
    · rw [if_neg hp] at h
      exact List.mem_cons_of_mem _ (ih h)

theorem lookupEntry_eq_none {m : List (ComponentId × Entry)} {cid : ComponentId}
    (h : ∀ p ∈ m, p.1 ≠ cid) : lookupEntry m cid = none := by
  induction m with
  | nil => rfl
  | cons p rest ih =>
    rw [lookupEntry, if_neg (h p (List.mem_cons_self p rest))]
    exact ih (fun q hq => h q (List.mem_cons_of_mem _ hq))

theorem lookupEntry_filter_self (m : List (ComponentId × Entry)) (cid : ComponentId) :
    lookupEntry (m.filter (fun p => p.1 ≠ cid)) cid = none := by
  refine lookupEntry_eq_none (fun p hp => ?_)
  have := List.of_mem_filter hp
  simpa using this

/-! Well-formedness facts. -/

theorem parentOf_eq_some {t : ComponentTable} {c p : ComponentId} :
    parentOf t c = some p ↔
      ∃ e, lookupEntry t.map c = some e ∧ e.live = true ∧ e.parentId = some p := by
  rw [parentOf]
  cases he : lookupEntry t.map c with
  | none => simp
  | some e =>
    by_cases hl : e.live <;> simp [hl]

theorem WF.parent_lt {t : ComponentTable} (hWF : WF t) {c p : ComponentId}
    (h : parentOf t c = some p) : p < c := by
  obtain ⟨e, he, hl, hp⟩ := parentOf_eq_some.1 h
  have hok := (hWF.1 _ (lookupEntry_mem he)).2
  rw [parentOkB, hp] at hok
  simpa using hok

theorem WF.key_lt {t : ComponentTable} (hWF : WF t) {c : ComponentId} {e : Entry}
    (h : lookupEntry t.map c = some e) : c < t.next_id :=
  (hWF.1 _ (lookupEntry_mem h)).1

theorem WF.parentOf_lt_next {t : ComponentTable} (hWF : WF t) {c p : ComponentId}
    (h : parentOf t c = some p) : p < t.next_id := by
  obtain ⟨e, he, _, _⟩ := parentOf_eq_some.1 h
  exact (hWF.parent_lt h).trans (hWF.key_lt he)

/-! The climb loop: soundness and the fixed-point property. -/

theorem mem_parentsOf {t : ComponentTable} {s : Finset ComponentId} {p : ComponentId} :
    p ∈ parentsOf t s ↔ ∃ c ∈ s, parentOf t c = some p := by
  simp [parentsOf, Option.mem_toFinset, Option.mem_def]

theorem climbLoop_empty (t : ComponentTable) (fuel : Nat) (allD : Finset ComponentId) :
    climbLoop t fuel allD ∅ = allD := by
  cases fuel <;> simp [climbLoop]

theorem climbLoop_sound (t : ComponentTable) :
    ∀ (fuel : Nat) (allD newD : Finset ComponentId),
      (∀ c ∈ allD, InClosure t c) → (∀ c ∈ newD, InClosure t c) →
      ∀ c ∈ climbLoop t fuel allD newD, InClosure t c := by
  intro fuel
  induction fuel with
  | zero => intro allD newD hA _ c hc; exact hA c hc
  | succ n ih =>
    intro allD newD hA hN c hc
    rw [climbLoop] at hc
    by_cases h : newD = ∅
    · rw [if_pos h] at hc; exact hA c hc
    · rw [if_neg h] at hc
      refine ih _ _ ?_ ?_ c hc
      · intro d hd
        rcases Finset.mem_union.1 hd with hd | hd
        · exact hA d hd
        · exact hN d hd
      · intro d hd
        obtain ⟨x, hx, hpx⟩ := mem_parentsOf.1 hd
        exact (hN x hx).parent hpx

theorem climbLoop_closed (t : ComponentTable)
    (hpar : ∀ c p, parentOf t c = some p → p < c) :
    ∀ (B fuel : Nat) (allD newD : Finset ComponentId), B ≤ fuel →
      (∀ c ∈ newD, c < B) →
      (∀ c ∈ allD, ∀ p, parentOf t c = some p → p ∈ allD ∪ newD) →
      (allD ∪ newD ⊆ climbLoop t fuel allD newD ∧
       ∀ c ∈ climbLoop t fuel allD newD, ∀ p, parentOf t c = some p →
          p ∈ climbLoop t fuel allD newD) := by
  intro B
  induction B with
  | zero =>
    intro fuel allD newD _ hbound hclosed
    have hempty : newD = ∅ := by
      refine Finset.eq_empty_of_forall_not_mem (fun c hc => ?_)
      exact absurd (hbound c hc) (Nat.not_lt_zero c)
    subst hempty
    rw [climbLoop_empty]
    constructor
    · rw [Finset.union_empty]
    · intro c hc p hp
      have := hclosed c hc p hp
      rwa [Finset.union_empty] at this
  | succ B ih =>
    intro fuel allD newD hfuel hbound hclosed
    by_cases h : newD = ∅
    · subst h
      rw [climbLoop_empty]
      constructor
      · rw [Finset.union_empty]
      · intro c hc p hp
        have := hclosed c hc p hp
        rwa [Finset.union_empty] at this
    · cases fuel with
      | zero => exact absurd hfuel (by omega)
      | succ f =>
        rw [climbLoop, if_neg h]
        have hbound' : ∀ c ∈ parentsOf t newD, c < B := by
          intro c hc
          obtain ⟨x, hx, hpx⟩ := mem_parentsOf.1 hc
          have h1 : c < x := hpar x c hpx
          have h2 : x < B + 1 := hbound x hx
          exact lt_of_lt_of_le h1 (Nat.lt_succ_iff.1 h2)
        have hclosed' : ∀ c ∈ allD ∪ newD, ∀ p, parentOf t c = some p →
            p ∈ (allD ∪ newD) ∪ parentsOf t newD := by
          intro c hc p hp
          rcases Finset.mem_union.1 hc with hc | hc
          · exact Finset.mem_union_left _ (hclosed c hc p hp)
          · exact Finset.mem_union_right _ (mem_parentsOf.2 ⟨c, hc, hp⟩)
        obtain ⟨hsub, hcl⟩ := ih f (allD ∪ newD) (parentsOf t newD) (by omega) hbound' hclosed'
        refine ⟨?_, hcl⟩
        exact Finset.Subset.trans Finset.subset_union_left hsub

/-- The ancestor closure computed by the climb is exactly `InClosure`
on well-formed tables: `next_id` fuel always reaches the fixed point. -/
theorem mem_allDirtyOf {t : ComponentTable} (hWF : WF t) (c : ComponentId) :
    c ∈ allDirtyOf t ↔ InClosure t c := by
  constructor
  · intro hc
    exact climbLoop_sound t t.next_id ∅ t.dirty (by simp) (fun d hd => InClosure.base hd) c hc
  · intro hc
    obtain ⟨hsub, hcl⟩ := climbLoop_closed t (fun a b hb => hWF.parent_lt hb)
      t.next_id t.next_id ∅ t.dirty le_rfl (fun d hd => hWF.2 d hd) (by simp)
    rw [allDirtyOf]
    induction hc with
    | base hd => exact hsub (by simpa using hd)
    | parent _ hp ih => exact hcl _ ih _ hp

/-- Everything in the ancestor closure is below `next_id` on a
well-formed table. -/
theorem inClosure_lt_next {t : ComponentTable} (hWF : WF t) {c : ComponentId}
    (hc : InClosure t c) : c < t.next_id := by
  induction hc with
  | base hd => exact hWF.2 _ hd
  | parent _ hp _ => exact hWF.parentOf_lt_next hp

/-! Lemmas connecting `ReachesUp`, `InClosure` and the ancestor chain. -/

theorem InClosure.of_reaches {t : ComponentTable} {c a : ComponentId}
    (hc : InClosure t c) (hr : ReachesUp t c a) : InClosure t a := by
  induction hr with
  | refl => exact hc
  | step hp _ ih => exact ih (hc.parent hp)

theorem ReachesUp.snoc {t : ComponentTable} {d c p : ComponentId}
    (h : ReachesUp t d c) (hp : parentOf t c = some p) : ReachesUp t d p := by
  induction h with
  | refl c => exact ReachesUp.step hp (ReachesUp.refl p)
  | step hq _ ih => exact ReachesUp.step hq (ih hp)

theorem inClosure_to_reaches {t : ComponentTable} {c : ComponentId}
    (hc : InClosure t c) : ∃ d ∈ t.dirty, ReachesUp t d c := by
  induction hc with
  | base hd => exact ⟨_, hd, ReachesUp.refl _⟩
  | parent _ hp ih =>
    obtain ⟨d, hd, hr⟩ := ih
    exact ⟨d, hd, hr.snoc hp⟩

theorem ReachesUp.le {t : ComponentTable} (hWF : WF t) {c a : ComponentId}
    (h : ReachesUp t c a) : a ≤ c := by
  induction h with
  | refl c => exact le_rfl
  | step hq _ ih => exact ih.trans (le_of_lt (hWF.parent_lt hq))

/-- On tables whose parent links strictly decrease, every id reachable
upward from `c` shows up in the ancestor chain of `c`, provided the
fuel exceeds `c`.  Used to decide non-reachability on concrete tables. -/
theorem ReachesUp.mem_ancestorChain {t : ComponentTable}
    (hpar : ∀ c p, parentOf t c = some p → p < c) {c a : ComponentId}
    (h : ReachesUp t c a) : ∀ fuel, c < fuel → a ∈ ancestorChain t fuel c := by
  induction h with
  | refl c =>
    intro fuel _
    cases fuel <;> simp [ancestorChain]
  | step hq hr ih =>
    intro fuel hfuel
    cases fuel with
    | zero => exact absurd hfuel (Nat.not_lt_zero _)
    | succ f =>
      rw [ancestorChain]
      right
      rw [hq]
      exact ih f (lt_of_lt_of_le (hpar _ _ hq) (Nat.lt_succ_iff.1 hfuel))

/-! Lemmas about the rebuild pass. -/

theorem execPass_sublist (eff : ComponentId → ComponentTable → ComponentTable) :
    ∀ (l : List ComponentId) (t : ComponentTable),
      List.Sublist (execPass eff l t).2 l := by
  intro l
  induction l with
  | nil => intro t; simp [execPass]
  | cons cid rest ih =>
    intro t
    rw [execPass]
    by_cases h : liveInMap t.map cid
    · rw [if_pos h]
      exact List.Sublist.cons₂ cid (ih (eff cid t))
    · rw [if_neg h]
      exact List.Sublist.cons cid (ih t)

theorem execPass_trace (eff : ComponentId → ComponentTable → ComponentTable)
    (heff : DirtyOnly eff) :
    ∀ (l : List ComponentId) (t : ComponentTable),
      (execPass eff l t).2 = l.filter (fun cid => liveInMap t.map cid) := by
  intro l
  induction l with
  | nil => intro t; simp [execPass]
  | cons cid rest ih =>
    intro t
    rw [execPass, List.filter_cons]
    by_cases h : liveInMap t.map cid
    · rw [if_pos h, if_pos h, ih (eff cid t), heff cid t]
    · rw [if_neg h, if_neg h, ih t]

theorem execPass_map (eff : ComponentId → ComponentTable → ComponentTable)
    (heff : DirtyOnly eff) :
    ∀ (l : List ComponentId) (t : ComponentTable),
      (execPass eff l t).1.map = t.map := by
  intro l
  induction l with
  | nil => intro t; simp [execPass]
  | cons cid rest ih =>
    intro t
    rw [execPass]
    by_cases h : liveInMap t.map cid
    · rw [if_pos h]
      rw [ih (eff cid t), heff cid t]
    · rw [if_neg h]
      exact ih t

theorem exec_rebuilds_dirty (eff : ComponentId → ComponentTable → ComponentTable)
    (t : ComponentTable) : (exec_rebuilds eff t).1.dirty = ∅ := rfl

theorem exec_rebuilds_trace_def (eff : ComponentId → ComponentTable → ComponentTable)
    (t : ComponentTable) :
    (exec_rebuilds eff t).2 = (execPass eff ((allDirtyOf t).sort (· ≤ ·)) t).2 := rfl

theorem exec_rebuilds_trace (eff : ComponentId → ComponentTable → ComponentTable)
    (heff : DirtyOnly eff) (t : ComponentTable) :
    (exec_rebuilds eff t).2 =
      ((allDirtyOf t).sort (· ≤ ·)).filter (fun cid => liveInMap t.map cid) := by
  rw [exec_rebuilds_trace_def, execPass_trace eff heff]

/-! Evaluating the ascending-id enumeration on concrete tables:
`Finset.sort` is replaced by a filtered `List.range`, which the
kernel can compute. -/

theorem sort_eq_filter_range {s : Finset Nat} {n : Nat} (h : ∀ c ∈ s, c < n) :
    s.sort (· ≤ ·) = (List.range n).filter (fun c => decide (c ∈ s)) := by
  have hperm : List.Perm (s.sort (· ≤ ·))
      ((List.range n).filter (fun c => decide (c ∈ s))) := by
    apply List.perm_of_nodup_nodup_toFinset_eq (Finset.sort_nodup _ s)
      ((List.nodup_range n).filter _)
    ext a
    simp only [List.mem_toFinset, Finset.mem_sort, List.mem_filter, List.mem_range,
      decide_eq_true_eq]
    constructor
    · intro ha; exact ⟨h a ha, ha⟩
    · intro ha; exact ha.2
  exact List.eq_of_perm_of_sorted hperm (Finset.sort_sorted _ s)
    (((List.pairwise_lt_range n).imp le_of_lt).filter _)

theorem exec_rebuilds_eval {t : ComponentTable} {n : Nat}
    (h : ∀ c ∈ allDirtyOf t, c < n)
    (eff : ComponentId → ComponentTable → ComponentTable) :
    exec_rebuilds eff t =
      ({ (execPass eff ((List.range n).filter (fun c => decide (c ∈ allDirtyOf t))) t).1
          with dirty := ∅ },
       (execPass eff ((List.range n).filter (fun c => decide (c ∈ allDirtyOf t))) t).2) := by
  rw [exec_rebuilds, sort_eq_filter_range h]

/-! Lemmas about the state accessors. -/

theorem tryBorrowMut_eq_none {b : BorrowFlag} (h : b ≠ BorrowFlag.unused) :
    tryBorrowMut b = none := by
  cases b with
  | unused => exact absurd rfl h
  | reading n => rfl
  | writing => rfl

theorem with_model_err {G A R : Type} (lens : Lens G A) (f : A → R) (s : EngineState G)
    (hb : s.globalBorrow ≠ BorrowFlag.unused) :
    with_model lens f s = Except.error AccessPanic.alreadyBorrowed := by
  rw [with_model, tryBorrowMut_eq_none hb]

theorem with_model_mut_err {G A R : Type} (cid : ComponentId) (lens : Lens G A)
    (f : A → A × R) (s : EngineState G) (hb : s.globalBorrow ≠ BorrowFlag.unused) :
    with_model_mut cid lens f s = Except.error AccessPanic.alreadyBorrowed := by
  rw [with_model_mut, tryBorrowMut_eq_none hb]

theorem with_model_ok {G A R : Type} (lens : Lens G A) (f : A → R) (s : EngineState G)
    (hb : s.globalBorrow = BorrowFlag.unused) :
    with_model lens f s = Except.ok (s, f (lens.get s.global)) := by
  rw [with_model, hb]
  rfl

theorem with_model_mut_ok {G A R : Type} (cid : ComponentId) (lens : Lens G A)
    (f : A → A × R) (s : EngineState G) (hb : s.globalBorrow = BorrowFlag.unused) :
    with_model_mut cid lens f s =
      Except.ok ({ s with global := lens.set s.global (f (lens.get s.global)).1,
                          table := s.table.mark_dirty cid },
                 (f (lens.get s.global)).2,
                 if s.table.is_clean then List.range s.numCbs else []) := by
  rw [with_model_mut, hb]
  rfl

theorem is_clean_mark_dirty (t : ComponentTable) (cid : ComponentId) :
    (t.mark_dirty cid).is_clean = false := by
  simp [ComponentTable.is_clean, ComponentTable.mark_dirty, Finset.insert_ne_empty]

theorem runMuts_cons {G : Type} (m : ComponentId × (G → G))
    (rest : List (ComponentId × (G → G))) (s : EngineState G)
    (hb : s.globalBorrow = BorrowFlag.unused) :
    runMuts (m :: rest) s =
      ((runMuts rest { s with global := m.2 s.global,
                              table := s.table.mark_dirty m.1 }).1,
       (if s.table.is_clean then List.range s.numCbs else [])
         ++ (runMuts rest { s with global := m.2 s.global,
                                   table := s.table.mark_dirty m.1 }).2) := by
  rw [runMuts, with_model_mut_ok _ _ _ _ hb]
  rfl

theorem runMuts_not_clean {G : Type} :
    ∀ (muts : List (ComponentId × (G → G))) (s : EngineState G),
      s.table.is_clean = false → s.globalBorrow = BorrowFlag.unused →
      (runMuts muts s).2 = [] := by
  intro muts
  induction muts with
  | nil => intro s _ _; rfl
  | cons m rest ih =>
    intro s hcl hb
    rw [runMuts_cons m rest s hb, hcl]
    simp only [Bool.false_eq_true, if_false, List.nil_append]
    exact ih _ (is_clean_mark_dirty _ _) hb

theorem runMuts_clean_fires_once {G : Type} (muts : List (ComponentId × (G → G)))
    (s : EngineState G) (hb : s.globalBorrow = BorrowFlag.unused)
    (hclean : s.table.is_clean = true) (hm : muts ≠ []) :
    (runMuts muts s).2 = List.range s.numCbs := by
  cases muts with
  | nil => exact absurd rfl hm
  | cons m rest =>
    rw [runMuts_cons m rest s hb, hclean]
    simp only [if_true]
    rw [runMuts_not_clean rest
      { s with global := m.2 s.global, table := s.table.mark_dirty m.1 }
      (is_clean_mark_dirty s.table m.1) hb]
    simp

/-! Lemmas about the event traces. -/

theorem with_model_mut_events_clean (n : Nat) :
    with_model_mut_events n true =
      ([MEvent.borrowGlobal, MEvent.runClosure] ++ (List.range n).map MEvent.invoke)
        ++ [MEvent.releaseGlobal] := by
  rw [with_model_mut_events]
  simp [List.append_assoc]

theorem invoke_injective : Function.Injective MEvent.invoke := by
  intro a b h
  injection h

theorem count_invoke_prefix (i : Nat) :
    ([MEvent.borrowGlobal, MEvent.runClosure] ++ (List.range n).map MEvent.invoke).count
        (MEvent.invoke i) = ((List.range n).map MEvent.invoke).count (MEvent.invoke i) := by
  rw [List.count_append]
  simp [List.count_cons]

/-! Claim theorems. -/

theorem mark_dirty_mark_dirty (t : ComponentTable) (cid : ComponentId) :
    (t.mark_dirty cid).mark_dirty cid = t.mark_dirty cid := by
  simp [ComponentTable.mark_dirty]

/-- C9: marking a component id dirty N ≥ 1 times before a flush
leaves the component table in exactly the state that marking it once
does, and marking an already-dirty id is a no-op. -/
theorem c9_mark_dirty_idempotent (t : ComponentTable) (cid : ComponentId) (n : Nat)
    (hn : 1 ≤ n) :
    (fun s => ComponentTable.mark_dirty s cid)^[n] t = t.mark_dirty cid ∧
    (cid ∈ t.dirty → t.mark_dirty cid = t) := by
  constructor
  · induction n with
    | zero => exact absurd hn (by omega)
    | succ m ih =>
      cases Nat.eq_or_lt_of_le hn with
      | inl h =>
        have hm : m = 0 := by omega
        subst hm
        simp
      | inr h =>
        rw [Function.iterate_succ_apply', ih (by omega)]
        exact mark_dirty_mark_dirty t cid
  · intro hmem
    rw [ComponentTable.mark_dirty]
    rw [Finset.insert_eq_self.2 hmem]

/-- Witness for C9: marking component 1 of the two-component table
three times equals marking it once, and 1 is already dirty there so
one more mark is a no-op. -/
theorem c9_witness :
    (fun s => ComponentTable.mark_dirty s 1)^[3] tTwo = tTwo.mark_dirty 1 ∧
    (1 ∈ tTwo.dirty → tTwo.mark_dirty 1 = tTwo) :=
  c9_mark_dirty_idempotent tTwo 1 3 (by decide)

/-- C7: a reentrant exclusive access — calling `with_model` or
`with_model_mut` while another access on the same global state is
outstanding (the borrow flag is not `unused`) — is detected and
reported immediately as the `RefCell` borrow panic, rather than
deadlocking, reading inconsistently, or corrupting state. -/
theorem c7_reentrant_access_fails_fast {G A R : Type} (s : EngineState G)
    (lens : Lens G A) (f : A → R) (g : A → A × R) (cid : ComponentId)
    (h : s.globalBorrow ≠ BorrowFlag.unused) :
    with_model lens f s = Except.error AccessPanic.alreadyBorrowed ∧
    with_model_mut cid lens g s = Except.error AccessPanic.alreadyBorrowed :=
  ⟨with_model_err lens f s h, with_model_mut_err cid lens g s h⟩

/-- Witness for C7 at a state whose global model is exclusively
borrowed (as it is while a `with_model` closure runs). -/
theorem c7_witness :
    with_model Lens.idLens (fun a : Nat => a) sBusy
        = Except.error AccessPanic.alreadyBorrowed ∧
    with_model_mut 1 Lens.idLens (fun a : Nat => (a, a)) sBusy
        = Except.error AccessPanic.alreadyBorrowed :=
  c7_reentrant_access_fails_fast sBusy Lens.idLens (fun a => a) (fun a => (a, a)) 1
    (by decide)

/-- C10: `with_model` returns the closure applied to the component's
lensed slice of the global state and changes nothing observable: the
engine state (global model, registry, dirty set, listener list) is
returned unchanged and no change listener is ever invoked. -/
theorem c10_with_model_pure {G A R : Type} (s : EngineState G) (lens : Lens G A)
    (f : A → R) (hb : s.globalBorrow = BorrowFlag.unused) :
    with_model lens f s = Except.ok (s, f (lens.get s.global)) ∧
    (∀ i : Nat, MEvent.invoke i ∉ with_model_events) := by
  refine ⟨with_model_ok lens f s hb, ?_⟩
  intro i
  simp [with_model_events]

/-- Witness for C10 on a concrete state and closure. -/
theorem c10_witness :
    with_model Lens.idLens (fun n : Nat => n + 1) sFree = Except.ok (sFree, 8) ∧
    MEvent.invoke 0 ∉ with_model_events := by
  have h := c10_with_model_pure sFree Lens.idLens (fun n : Nat => n + 1) rfl
  exact ⟨h.1, h.2 0⟩

/-- C8: destroying a component — the effect of dropping its last
handle — removes its id from both the registry map and the dirty set,
and a subsequent flush never invokes rebuild on the destroyed id
(even when the dirty climb reaches it): the stale entry is skipped
silently, every operation involved being total. -/
theorem c8_destruction_safety (t : ComponentTable) (cid : ComponentId)
    (eff : ComponentId → ComponentTable → ComponentTable) (heff : DirtyOnly eff) :
    lookupEntry (t.destroy cid).map cid = none ∧
    cid ∉ (t.destroy cid).dirty ∧
    cid ∉ (exec_rebuilds eff (t.destroy cid)).2 := by
  refine ⟨lookupEntry_filter_self t.map cid, ?_, ?_⟩
  · simp [ComponentTable.destroy]
  · rw [exec_rebuilds_trace eff heff]
    intro hmem
    have hp := List.of_mem_filter hmem
    have h0 : liveInMap (t.destroy cid).map cid = false := by
      have hl : lookupEntry (t.destroy cid).map cid = none :=
        lookupEntry_filter_self t.map cid
      rw [liveInMap, hl]
    rw [h0] at hp
    exact absurd hp (by simp)

/-- Witness for C8: destroying the dirty task T3 (id 5) of the
scenario tree before the flush. -/
theorem c8_witness :
    lookupEntry (tRLTdirty.destroy 5).map 5 = none ∧
    5 ∉ (tRLTdirty.destroy 5).dirty ∧
    5 ∉ (exec_rebuilds effNone (tRLTdirty.destroy 5)).2 :=
  c8_destruction_safety tRLTdirty 5 effNone (fun _ _ => rfl)

/-- C3: ancestor closure — whenever component c is in the dirty set
as the flush begins and a is c or an ancestor of c reached through
live parent links, and a itself still has a live registry entry, the
flush invokes rebuild on a; rebuild hooks that only mark dirty cannot
disturb this. -/
theorem c3_ancestor_closure (t : ComponentTable)
    (eff : ComponentId → ComponentTable → ComponentTable) (c a : ComponentId)
    (hWF : WF t) (heff : DirtyOnly eff) (hc : c ∈ t.dirty)
    (hr : ReachesUp t c a) (ha : liveInMap t.map a = true) :
    a ∈ (exec_rebuilds eff t).2 := by
  rw [exec_rebuilds_trace eff heff]
  refine List.mem_filter.2 ⟨?_, ha⟩
  rw [Finset.mem_sort, mem_allDirtyOf hWF]
  exact (InClosure.base hc).of_reaches hr

/-- Witness for C3: in the scenario tree with T3 (id 5) dirty, the
root (id 1) is rebuilt. -/
theorem c3_witness : 1 ∈ (exec_rebuilds effNone tRLTdirty).2 := by
  have h52 : parentOf tRLTdirty 5 = some 2 := by decide
  have h21 : parentOf tRLTdirty 2 = some 1 := by decide
  exact c3_ancestor_closure tRLTdirty effNone 5 1 (by decide) (fun _ _ => rfl) (by decide)
    (ReachesUp.step h52 (ReachesUp.step h21 (ReachesUp.refl 1))) (by decide)

/-- C6: a component that is not dirty when the flush begins and has
no dirty descendant (no dirty component reaches it by climbing parent
links) is never rebuilt by the flush, and — for rebuild hooks that
only mark dirty — its registry entry is untouched; the flush
machinery itself never reads or writes the global model, which is not
even an input of `exec_rebuilds`. -/
theorem c6_clean_subtree_exclusion (t : ComponentTable)
    (eff : ComponentId → ComponentTable → ComponentTable) (c : ComponentId)
    (hnd : ∀ d ∈ t.dirty, ¬ ReachesUp t d c) :
    c ∉ (exec_rebuilds eff t).2 ∧
    (DirtyOnly eff →
      lookupEntry (exec_rebuilds eff t).1.map c = lookupEntry t.map c) := by
  constructor
  · intro hc
    rw [exec_rebuilds_trace_def] at hc
    have hcs : c ∈ (allDirtyOf t).sort (· ≤ ·) :=
      (execPass_sublist eff ((allDirtyOf t).sort (· ≤ ·)) t).subset hc
    rw [Finset.mem_sort] at hcs
    have hin : InClosure t c :=
      climbLoop_sound t t.next_id ∅ t.dirty (by simp)
        (fun d hd => InClosure.base hd) c hcs
    obtain ⟨d, hd, hr⟩ := inClosure_to_reaches hin
    exact hnd d hd hr
  · intro heff
    show lookupEntry (execPass eff ((allDirtyOf t).sort (· ≤ ·)) t).1.map c = _
    rw [execPass_map eff heff]

/-- Witness for C6: in the scenario tree with only T3 (id 5) dirty,
task T1 (id 3) is not rebuilt and keeps its registry entry. -/
theorem c6_witness :
    3 ∉ (exec_rebuilds effNone tRLTdirty).2 ∧
    lookupEntry (exec_rebuilds effNone tRLTdirty).1.map 3
      = lookupEntry tRLTdirty.map 3 := by
  have hWF : WF tRLTdirty := by decide
  have h := c6_clean_subtree_exclusion tRLTdirty effNone 3 (fun d hd hr => by
    have hd5 : d = 5 := by
      have : d ∈ ({5} : Finset Nat) := hd
      simpa using this
    subst hd5
    have hmem := hr.mem_ancestorChain (fun a b hb => hWF.parent_lt hb) 6 (by decide)
    exact absurd hmem (by decide))
  exact ⟨h.1, h.2 (fun _ _ => rfl)⟩

/-- C4: within a flush, rebuilds happen in strictly ascending
component-id order, so along any lineage an ancestor (which always
has the smaller id) is rebuilt no later than any of its descendants;
this is sound because `create_child` reserves the child id from the
counter after the parent's id was allocated, records the parent link,
and preserves well-formedness. -/
theorem c4_visitation_order (t : ComponentTable)
    (eff : ComponentId → ComponentTable → ComponentTable) (c a : ComponentId)
    (hWF : WF t) (hr : ReachesUp t c a) :
    List.Sorted (· < ·) (exec_rebuilds eff t).2 ∧
    a ≤ c ∧
    (∀ i j : Fin (exec_rebuilds eff t).2.length,
        (exec_rebuilds eff t).2.get i = a → (exec_rebuilds eff t).2.get j = c → i ≤ j) ∧
    (∀ parent : ComponentId, (lookupEntry t.map parent).isSome = true →
        parent < (create_child t parent).1 ∧
        parentOf (create_child t parent).2 (create_child t parent).1 = some parent ∧
        WF (create_child t parent).2) := by
  have hsorted : List.Sorted (· < ·) (exec_rebuilds eff t).2 := by
    rw [exec_rebuilds_trace_def]
    exact (Finset.sort_sorted_lt (allDirtyOf t)).sublist
      (execPass_sublist eff ((allDirtyOf t).sort (· ≤ ·)) t)
  refine ⟨hsorted, hr.le hWF, ?_, ?_⟩
  · intro i j hi hj
    by_contra hij
    have hji : j < i := not_le.1 hij
    have hlt := List.pairwise_iff_get.1 hsorted j i hji
    rw [hi, hj] at hlt
    exact absurd (hr.le hWF) (not_le.2 hlt)
  · intro parent hpar
    obtain ⟨e, he⟩ := Option.isSome_iff_exists.1 hpar
    have hplt : parent < t.next_id := hWF.key_lt he
    refine ⟨hplt, ?_, ?_, ?_⟩
    · show parentOf
        { next_id := t.next_id + 1,
          map := (t.next_id, ⟨true, some parent⟩) ::
            t.map.filter (fun p => p.1 ≠ t.next_id),
          dirty := t.dirty } t.next_id = some parent
      rw [parentOf, lookupEntry]
      simp
    · intro p hp
      rcases List.mem_cons.1 hp with hp | hp
      · subst hp
        refine ⟨Nat.lt_succ_self t.next_id, ?_⟩
        rw [parentOkB]
        simpa using hplt
      · have hpm := List.mem_of_mem_filter hp
        have h2 := hWF.1 p hpm
        exact ⟨Nat.lt_succ_of_lt h2.1, h2.2⟩
    · intro d hd
      exact Nat.lt_succ_of_lt (hWF.2 d hd)

/-- Witness for C4: the scenario flush trace of the tree with T3
dirty is ascending, the list L (id 2) precedes its task T3 (id 5)
as 2 ≤ 5, and creating a child of L allocates id 8 with parent
link 2, preserving well-formedness. -/
theorem c4_witness :
    List.Sorted (· < ·) (exec_rebuilds effNone tRLTdirty).2 ∧
    (2 : ComponentId) ≤ 5 ∧
    2 < (create_child tRLTdirty 2).1 ∧
    WF (create_child tRLTdirty 2).2 := by
  have h52 : parentOf tRLTdirty 5 = some 2 := by decide
  have h := c4_visitation_order tRLTdirty effNone 5 2 (by decide)
    (ReachesUp.step h52 (ReachesUp.refl 2))
  exact ⟨h.1, h.2.1, (h.2.2.2 2 (by decide)).1, (h.2.2.2 2 (by decide)).2.2⟩

/-- C1 (amended): the set of rebuild invocations of a flush is fixed
by the table as the flush begins — dirty marks created by the
rebuilds a flush itself triggers are never re-examined within that
flush — and the final clear empties the dirty set entirely, so those
marks are removed rather than becoming part of the next flush. -/
theorem c1_flush_ignores_and_clears_inner_marks (t : ComponentTable)
    (eff : ComponentId → ComponentTable → ComponentTable) (heff : DirtyOnly eff) :
    (exec_rebuilds eff t).2 = (exec_rebuilds effNone t).2 ∧
    (exec_rebuilds eff t).1.dirty = ∅ := by
  refine ⟨?_, rfl⟩
  rw [exec_rebuilds_trace eff heff, exec_rebuilds_trace effNone (fun _ _ => rfl)]

/-- C1 counterexample: in the two-component table with the root
dirty, the root's rebuild marks component 2 dirty mid-flush (visible
in the table reached just before the final clear), yet after the
flush the dirty set is empty — the mark did not survive into the
next flush, and component 2 was never rebuilt. -/
theorem c1_counterexample :
    (exec_rebuilds effMark2 tTwo).2 = [1] ∧
    2 ∈ (execPass effMark2 ((allDirtyOf tTwo).sort (· ≤ ·)) tTwo).1.dirty ∧
    (exec_rebuilds effMark2 tTwo).1.dirty = ∅ := by
  refine ⟨?_, ?_, rfl⟩
  · rw [exec_rebuilds_eval (by decide : ∀ c ∈ allDirtyOf tTwo, c < 3) effMark2]
    decide
  · rw [sort_eq_filter_range (by decide : ∀ c ∈ allDirtyOf tTwo, c < 3)]
    decide

/-- Witness for C1 on the two-component table with the mid-flush
marking rebuild hook. -/
theorem c1_witness :
    (exec_rebuilds effMark2 tTwo).2 = (exec_rebuilds effNone tTwo).2 ∧
    (exec_rebuilds effMark2 tTwo).1.dirty = ∅ :=
  c1_flush_ignores_and_clears_inner_marks tTwo effMark2 (fun cid s => by
    show (if cid = 1 then s.mark_dirty 2 else s).map = s.map
    by_cases h : cid = 1 <;> simp [h, ComponentTable.mark_dirty])

theorem traceRLT_eq : traceRLT = [1, 2, 5] := by
  show (exec_rebuilds effNone tRLTdirty).2 = [1, 2, 5]
  rw [exec_rebuilds_eval (by decide : ∀ c ∈ allDirtyOf tRLTdirty, c < 8) effNone]
  decide

/-- C5 counterexample: in the R/L/T1..T5 tree, after marking only T3
(id 5) dirty through `with_model_mut`, the flush rebuilds [1, 2, 5] —
R first, then L, then T3 — not T3, then L, then R as the claim
states. -/
theorem c5_counterexample : traceRLT = [1, 2, 5] ∧ traceRLT ≠ [5, 2, 1] := by
  refine ⟨traceRLT_eq, ?_⟩
  rw [traceRLT_eq]
  decide

/-- C5 (amended): in the R/L/T1..Tn scenario, after marking only T3
dirty via `with_model_mut` and before any other flush,
`exec_rebuilds` rebuilds R (id 1), then L (id 2), then T3 (id 5), in
that ancestors-first ascending-id order, and leaves T1, T2, T4, T5
(ids 3, 4, 6, 7) un-rebuilt. -/
theorem c5_scenario_order :
    traceRLT = [1, 2, 5] ∧
    3 ∉ traceRLT ∧ 4 ∉ traceRLT ∧ 6 ∉ traceRLT ∧ 7 ∉ traceRLT := by
  refine ⟨traceRLT_eq, ?_, ?_, ?_, ?_⟩ <;> rw [traceRLT_eq] <;> decide

/-- C2 (amended): on every successful `with_model_mut`, the
registered change listeners all fire exactly once, in registration
order, if and only if the dirty set was empty immediately before the
call; the invocations happen inside the access scope, before the
exclusive borrow of the global state is released (the `RefMut` guard
is dropped only at the end of the call); and across any nonempty
sequence of `with_model_mut` calls between two flushes each listener
fires exactly once in total. -/
theorem c2_edge_triggered_listeners {G A R : Type} (s : EngineState G)
    (cid : ComponentId) (lens : Lens G A) (f : A → A × R)
    (muts : List (ComponentId × (G → G)))
    (hb : s.globalBorrow = BorrowFlag.unused) (hclean : s.table.is_clean = true)
    (hm : muts ≠ []) :
    firedOf (with_model_mut cid lens f s) = List.range s.numCbs ∧
    (∀ (s' : EngineState G) (cid' : ComponentId) (f' : A → A × R),
        s'.table.is_clean = false → firedOf (with_model_mut cid' lens f' s') = []) ∧
    (∀ n : Nat,
        List.Sublist ((List.range n).map MEvent.invoke) (with_model_mut_events n true)) ∧
    (∀ n i : Nat, i < n →
        (with_model_mut_events n true).dropLast.count (MEvent.invoke i) = 1) ∧
    (∀ n : Nat, (with_model_mut_events n true).getLast? = some MEvent.releaseGlobal) ∧
    (∀ n i : Nat, (with_model_mut_events n false).count (MEvent.invoke i) = 0) ∧
    (runMuts muts s).2 = List.range s.numCbs := by
  refine ⟨?_, ?_, ?_, ?_, ?_, ?_, runMuts_clean_fires_once muts s hb hclean hm⟩
  · rw [with_model_mut_ok cid lens f s hb]
    show (if s.table.is_clean then List.range s.numCbs else []) = List.range s.numCbs
    rw [hclean]
    simp
  · intro s' cid' f' hcl
    by_cases hb' : s'.globalBorrow = BorrowFlag.unused
    · rw [with_model_mut_ok cid' lens f' s' hb']
      show (if s'.table.is_clean then List.range s'.numCbs else []) = []
      rw [hcl]
      simp
    · rw [with_model_mut_err cid' lens f' s' hb']
      rfl
  · intro n
    rw [with_model_mut_events_clean n]
    exact (List.sublist_append_right _ _).trans (List.sublist_append_left _ _)
  · intro n i hi
    rw [with_model_mut_events_clean n, List.dropLast_concat, List.count_append]
    have h0 : ([MEvent.borrowGlobal, MEvent.runClosure]).count (MEvent.invoke i) = 0 := by
      simp [List.count_cons]
    have h1 : ((List.range n).map MEvent.invoke).count (MEvent.invoke i) = 1 :=
      List.count_eq_one_of_mem ((List.nodup_range n).map invoke_injective)
        (List.mem_map_of_mem _ (List.mem_range.2 hi))
    rw [h0, h1]
  · intro n
    rw [with_model_mut_events_clean n]
    exact List.getLast?_concat _
  · intro n i
    simp [with_model_mut_events, List.count_cons]

/-- C2 counterexample: with one registered listener and a clean
table, the `with_model_mut` event trace invokes the listener strictly
before the exclusive borrow of the global state is released — the
`RefMut` guard obtained at the top of the function body is dropped at
scope end, after the listener loop — refuting the claim that
invocation happens only after exclusive access has been released. -/
theorem c2_counterexample :
    MEvent.invoke 0 ∈ with_model_mut_events 1 true ∧
    (with_model_mut_events 1 true).indexOf (MEvent.invoke 0) <
      (with_model_mut_events 1 true).indexOf MEvent.releaseGlobal := by
  decide

/-- Witness for C2 on a fresh state with two listeners: one
`with_model_mut` fires [0, 1], and a two-mutation sequence on
components 1 and 2 also fires [0, 1] in total. -/
theorem c2_witness :
    firedOf (with_model_mut 1 Lens.idLens (fun a : Nat => (a + 1, ())) sTwoCbs)
        = [0, 1] ∧
    (runMuts [(1, fun g : Nat => g + 1), (2, fun g : Nat => g * 2)] sTwoCbs).2
        = [0, 1] := by
  have h := c2_edge_triggered_listeners sTwoCbs 1 Lens.idLens
    (fun a : Nat => (a + 1, ())) [(1, fun g : Nat => g + 1), (2, fun g : Nat => g * 2)]
    rfl (by decide) (List.cons_ne_nil _ _)
  exact ⟨h.1.trans (by decide), h.2.2.2.2.2.2.trans (by decide)⟩
